import Mathlib

/-!
Shallow embedding of the `dynamic-domain` Rust crate (`src/lib.rs`,
`src/util.rs`): an integer domain expressed as a union of intervals, with
narrowing operators `gt`/`lt`, a textual renderer `repr`, and an
enumeration procedure `generate`.  Machine integers (`i32`) are modelled
as `Int`; the `generate` loop, which may not terminate, is modelled by a
fuel-indexed emission list (`genList`).  Where the loop's arithmetic can
overflow the 32-bit range — decisive for the behaviour of `generate` when
its start value exceeds its stopping bound — the loop is additionally
modelled with the two's-complement wrap-around of release-mode `i32`
arithmetic (`wrap32`, `genLoopList32`, `genIter32`, `genList32`); debug
builds abort on that overflow instead.
-/

namespace DynamicDomain

/-- `Value<T>` from `src/lib.rs`: a referencing point of an interval. -/
inductive Value where
  | Included : Int → Value
  | Secluded : Int → Value
  | Infinite : Value
deriving DecidableEq

/-- `Domain<T>` from `src/lib.rs`: a union of domains, a single interval
with start and end `Value`, or the empty set (`None`). -/
inductive Domain where
  | Union : List Domain → Domain
  | Interval : Value → Value → Domain
  | None : Domain

/-- `convert_to_secluded` from `src/util.rs` (side-aware revision): turns a
`Value` into the equivalent exclusive integer boundary for the side given by
the `gt` flag, and `none` for `Infinite`. -/
def convert_to_secluded (value : Value) (gt : Bool) : Option Int :=
  match value with
  | Value.Included i => some (if gt then i - 1 else i + 1)
  | Value.Secluded i => some i
  | Value.Infinite => none

/-- `Domain::new` from `src/lib.rs`: the full line, both borders infinite. -/
def Domain.new : Domain :=
  Domain.Interval Value.Infinite Value.Infinite

/-- `Domain::gt` from `src/lib.rs`: narrow the starting border by `value`.
The call into `util` passes the lower-side flag (`gt = true`). -/
def Domain.gt (self : Domain) (value : Value) : Domain :=
  match convert_to_secluded value true with
  | none => Domain.None
  | some secluded_value =>
    match self with
    | Domain.Interval left right =>
      match left with
      | Value.Included i =>
          if secluded_value > i then
            Domain.Interval (Value.Included secluded_value) right
          else
            Domain.Interval left right
      | Value.Secluded i =>
          if secluded_value > i then
            Domain.Interval (Value.Secluded secluded_value) right
          else
            Domain.Interval left right
      | Value.Infinite =>
          Domain.Interval (Value.Secluded secluded_value) right
    | d => d

/-- `Domain::lt` from `src/lib.rs`: narrow the ending border by `value`.
The call into `util` passes the upper-side flag (`gt = false`). -/
def Domain.lt (self : Domain) (value : Value) : Domain :=
  match convert_to_secluded value false with
  | none => Domain.None
  | some secluded_value =>
    match self with
    | Domain.Interval left right =>
      match right with
      | Value.Included i =>
          if secluded_value < i then
            Domain.Interval left (Value.Included secluded_value)
          else
            Domain.Interval left right
      | Value.Secluded i =>
          if secluded_value < i then
            Domain.Interval left (Value.Secluded secluded_value)
          else
            Domain.Interval left right
      | Value.Infinite =>
          Domain.Interval left (Value.Secluded secluded_value)
    | d => d

mutual

/-- `Domain::repr` from `src/lib.rs`: canonical math notation. -/
def Domain.repr : Domain → String
  | Domain.Union domains => Domain.reprJoin domains
  | Domain.Interval left right =>
      (match left with
       | Value.Included i => "[" ++ toString i
       | Value.Secluded i => "(" ++ toString i
       | Value.Infinite => "(-∞")
      ++ ";" ++
      (match right with
       | Value.Included i => toString i ++ "]"
       | Value.Secluded i => toString i ++ ")"
       | Value.Infinite => "∞)")
  | Domain.None => "∅"

/-- `Vec<String>::join` with the `UNION` glyph, as used by `Domain::repr`
on the `Union` variant. -/
def Domain.reprJoin : List Domain → String
  | [] => ""
  | [d] => d.repr
  | d :: rest => d.repr ++ "⋃" ++ Domain.reprJoin rest

end

/-- The loop set-up of `Domain::generate` on the `Domain::Domain(l, r)` arm
(`src/lib.rs`): computes `from_l`/`from_r`, performs the early return when
both are false (result `none`), and otherwise yields the triple
`(initial value, optional stopping bound, ascending?)` exactly as the
source does (`some (v, b, asc)`). -/
def genParams (l r : Value) : Option (Int × Option Int × Bool) :=
  let from_l : Bool := match l with
    | Value.Infinite => false
    | _ => true
  let from_r : Bool := match r with
    | Value.Infinite => false
    | _ => true
  if !from_l && !from_r then
    none
  else if from_l then
    some
      (match l with
       | Value.Included n => n
       | Value.Secluded n => n + 1
       | _ => 0,
       match r with
       | Value.Included n => some n
       | Value.Secluded n => some (n - 1)
       | _ => none,
       true)
  else
    some
      (match r with
       | Value.Included n => n
       | Value.Secluded n => n - 1
       | _ => 0,
       match l with
       | Value.Included n => some n
       | Value.Secluded n => some (n + 1)
       | _ => none,
       false)

/-- Fuel-indexed run of the emission loop of `Domain::generate`
(`loop { receiver(v); if v == bound break; v = f(v) }`): returns the list
of values passed to the receiver when the loop stops within `fuel`
iterations, and `none` when it does not. -/
def genLoopList : Nat → Int → Option Int → Bool → Option (List Int)
  | 0, _, _, _ => none
  | fuel + 1, v, b, asc =>
      if b = some v then
        some [v]
      else
        match genLoopList fuel (if asc then v + 1 else v - 1) b asc with
        | some rest => some (v :: rest)
        | none => none

/-- Two's-complement wrap-around of 32-bit signed arithmetic: the value an
`i32` holds after an overflowing operation in a release build (a debug
build panics instead). -/
def wrap32 (x : Int) : Int :=
  (x + 2147483648) % 4294967296 - 2147483648

/-- The range of `i32`, the integer type the source instantiates the
domain with. -/
def in32 (x : Int) : Prop :=
  -2147483648 ≤ x ∧ x ≤ 2147483647

/-- Fuel-indexed run of the emission loop of `Domain::generate` with the
source's `i32` step under release-mode wrapping semantics: each `v = f(v)`
wraps around the 32-bit range on overflow. -/
def genLoopList32 : Nat → Int → Option Int → Bool → Option (List Int)
  | 0, _, _, _ => none
  | fuel + 1, v, b, asc =>
      if b = some v then
        some [v]
      else
        match genLoopList32 fuel (wrap32 (if asc then v + 1 else v - 1)) b asc with
        | some rest => some (v :: rest)
        | none => none

/-- The per-iteration trace of the same wrapping emission loop:
`genIter32 v b asc k` is the value the loop passes to the receiver at
iteration `k`, and `none` when the loop has already stopped before
iteration `k`. -/
def genIter32 (v : Int) (b : Option Int) (asc : Bool) : Nat → Option Int
  | 0 => some v
  | k + 1 =>
      match genIter32 v b asc k with
      | some w => if b = some w then none else some (wrap32 (if asc then w + 1 else w - 1))
      | none => none

mutual

/-- Fuel-indexed model of `Domain::generate` (`src/lib.rs`): the list of
integers passed to the receiver, in order, when every loop it runs stops
within `fuel` iterations; `none` when `generate` does not terminate within
the fuel.  A `Union` enumerates its children in sequence; `None` and the
early-return case of an interval enumerate nothing. -/
def genList (fuel : Nat) : Domain → Option (List Int)
  | Domain.Union domains => genListMany fuel domains
  | Domain.Interval l r =>
      match genParams l r with
      | none => some []
      | some (v, b, asc) => genLoopList fuel v b asc
  | Domain.None => some []

/-- Sequential enumeration of the children of a `Union` by
`Domain::generate`. -/
def genListMany (fuel : Nat) : List Domain → Option (List Int)
  | [] => some []
  | d :: rest =>
      match genList fuel d, genListMany fuel rest with
      | some xs, some ys => some (xs ++ ys)
      | _, _ => none

end

mutual

/-- Fuel-indexed model of `Domain::generate` with the source's `i32` loop
step under release-mode wrapping semantics: identical to `genList` except
that the loop increments through `wrap32`. -/
def genList32 (fuel : Nat) : Domain → Option (List Int)
  | Domain.Union domains => genListMany32 fuel domains
  | Domain.Interval l r =>
      match genParams l r with
      | none => some []
      | some (v, b, asc) => genLoopList32 fuel v b asc
  | Domain.None => some []

/-- Sequential enumeration of the children of a `Union` under the wrapping
model of `Domain::generate`. -/
def genListMany32 (fuel : Nat) : List Domain → Option (List Int)
  | [] => some []
  | d :: rest =>
      match genList32 fuel d, genListMany32 fuel rest with
      | some xs, some ys => some (xs ++ ys)
      | _, _ => none

end

mutual

/-- Denotation of a `Domain` as a set of integers (the spec's reading of
the data model): an interval contains the integers between its borders,
a union contains the integers of its members, `None` contains nothing. -/
def Domain.memb (x : Int) : Domain → Bool
  | Domain.Union domains => Domain.membAny x domains
  | Domain.Interval l r =>
      (match l with
       | Value.Included i => decide (i ≤ x)
       | Value.Secluded i => decide (i < x)
       | Value.Infinite => true)
      &&
      (match r with
       | Value.Included i => decide (x ≤ i)
       | Value.Secluded i => decide (x < i)
       | Value.Infinite => true)
  | Domain.None => false

/-- Membership in some member of a list of domains. -/
def Domain.membAny (x : Int) : List Domain → Bool
  | [] => false
  | d :: rest => Domain.memb x d || Domain.membAny x rest

end

/-- The ascending list of integers from `a` to `b` inclusive (empty when
`b < a`): the enumeration order the spec describes for a doubly bounded
interval. -/
def ascRange (a b : Int) : List Int :=
  (List.range (b + 1 - a).toNat).map (fun k : Nat => a + (k : Int))

/-- Lower token of the rendering, following the spec's words: `"[v"` for
`Included(v)`, `"(v"` for `Excluded(v)`, `"(-∞"` for `Unbounded`. -/
def lowerToken : Value → String
  | Value.Included v => "[" ++ toString v
  | Value.Secluded v => "(" ++ toString v
  | Value.Infinite => "(-∞"

/-- Upper token of the rendering, following the spec's words: `"v]"` for
`Included(v)`, `"v)"` for `Excluded(v)`, `"∞)"` for `Unbounded`. -/
def upperToken : Value → String
  | Value.Included v => toString v ++ "]"
  | Value.Secluded v => toString v ++ ")"
  | Value.Infinite => "∞)"

/-- The integer immediately inside a lower boundary, following the spec's
words: `Included(v) → v`, `Excluded(v) → v+1`, none for `Unbounded`. -/
def startInside : Value → Option Int
  | Value.Included v => some v
  | Value.Secluded v => some (v + 1)
  | Value.Infinite => none

/-- The integer immediately inside an upper boundary, following the spec's
words: `Included(v) → v`, `Excluded(v) → v−1`, none for `Unbounded`. -/
def stopInside : Value → Option Int
  | Value.Included v => some v
  | Value.Secluded v => some (v - 1)
  | Value.Infinite => none

/-- Claim C2: the bound normalizer maps `Included(v)` to `v − 1` on the
lower (`gt`) side and to `v + 1` on the upper (`lt`) side, returns the
value of `Excluded(v)` unchanged on either side, and reports no value for
`Unbounded`. -/
theorem convert_to_secluded_spec :
    (∀ v : Int, convert_to_secluded (Value.Included v) true = some (v - 1))
    ∧ (∀ v : Int, convert_to_secluded (Value.Included v) false = some (v + 1))
    ∧ (∀ (v : Int) (side : Bool), convert_to_secluded (Value.Secluded v) side = some v)
    ∧ (∀ side : Bool, convert_to_secluded Value.Infinite side = none) :=
  ⟨fun _ => rfl, fun _ => rfl, fun _ _ => rfl, fun _ => rfl⟩

/-- Claim C3: for every receiver domain, narrowing with an `Unbounded`
incoming bound yields the empty domain under both `gt` and `lt`. -/
theorem gt_lt_infinite_yield_none (d : Domain) :
    d.gt Value.Infinite = Domain.None ∧ d.lt Value.Infinite = Domain.None :=
  ⟨rfl, rfl⟩

/-- Claim C8: `repr` renders an interval as a lower token, the single
separator `;`, then an upper token, with the tokens of the claim; it
renders the full line as `"(-∞;∞)"`, `[5;10)`-style intervals accordingly,
the empty domain as `"∅"`, and a union as its members' renderings joined
by `"⋃"` in sequence order. -/
theorem repr_rendering :
    (∀ l u : Value, (Domain.Interval l u).repr = lowerToken l ++ ";" ++ upperToken u)
    ∧ (Domain.Interval Value.Infinite Value.Infinite).repr = "(-∞;∞)"
    ∧ (Domain.Interval (Value.Included 5) (Value.Secluded 10)).repr = "[5;10)"
    ∧ Domain.None.repr = "∅"
    ∧ (Domain.Union []).repr = ""
    ∧ (∀ d : Domain, (Domain.Union [d]).repr = d.repr)
    ∧ (∀ (d e : Domain) (rest : List Domain),
        (Domain.Union (d :: e :: rest)).repr = d.repr ++ "⋃" ++ (Domain.Union (e :: rest)).repr) :=
  ⟨fun l u => by cases l <;> cases u <;> rfl,
   rfl, rfl, rfl, rfl, fun _ => rfl, fun _ _ _ => rfl⟩

/-- Case analysis of `gt` on an interval receiver whose incoming bound
normalizes to `s`. -/
theorem gt_eq_cases (u : Value) (x : Value) (s : Int)
    (hx : convert_to_secluded x true = some s) :
    (∀ i : Int, (Domain.Interval (Value.Included i) u).gt x =
      (if s > i then Domain.Interval (Value.Included s) u
       else Domain.Interval (Value.Included i) u))
    ∧ (∀ i : Int, (Domain.Interval (Value.Secluded i) u).gt x =
      (if s > i then Domain.Interval (Value.Secluded s) u
       else Domain.Interval (Value.Secluded i) u))
    ∧ (Domain.Interval Value.Infinite u).gt x = Domain.Interval (Value.Secluded s) u := by
  cases x with
  | Included v =>
      simp only [convert_to_secluded, Option.some.injEq] at hx
      subst hx
      exact ⟨fun i => rfl, fun i => rfl, rfl⟩
  | Secluded v =>
      simp only [convert_to_secluded, Option.some.injEq] at hx
      subst hx
      exact ⟨fun i => rfl, fun i => rfl, rfl⟩
  | Infinite => exact absurd hx (by simp [convert_to_secluded])

/-- Case analysis of `lt` on an interval receiver whose incoming bound
normalizes to `t`. -/
theorem lt_eq_cases (l : Value) (x : Value) (t : Int)
    (hx : convert_to_secluded x false = some t) :
    (∀ i : Int, (Domain.Interval l (Value.Included i)).lt x =
      (if t < i then Domain.Interval l (Value.Included t)
       else Domain.Interval l (Value.Included i)))
    ∧ (∀ i : Int, (Domain.Interval l (Value.Secluded i)).lt x =
      (if t < i then Domain.Interval l (Value.Secluded t)
       else Domain.Interval l (Value.Secluded i)))
    ∧ (Domain.Interval l Value.Infinite).lt x = Domain.Interval l (Value.Secluded t) := by
  cases x with
  | Included v =>
      simp only [convert_to_secluded, Option.some.injEq] at hx
      subst hx
      exact ⟨fun i => rfl, fun i => rfl, rfl⟩
  | Secluded v =>
      simp only [convert_to_secluded, Option.some.injEq] at hx
      subst hx
      exact ⟨fun i => rfl, fun i => rfl, rfl⟩
  | Infinite => exact absurd hx (by simp [convert_to_secluded])

/-- When the incoming bound has no finite boundary, `gt` yields the empty
domain on every receiver. -/
theorem gt_none_of_convert (d : Domain) (x : Value)
    (h : convert_to_secluded x true = none) : d.gt x = Domain.None := by
  cases x with
  | Included v => exact absurd h (by simp [convert_to_secluded])
  | Secluded v => exact absurd h (by simp [convert_to_secluded])
  | Infinite => rfl

/-- When the incoming bound has no finite boundary, `lt` yields the empty
domain on every receiver. -/
theorem lt_none_of_convert (d : Domain) (x : Value)
    (h : convert_to_secluded x false = none) : d.lt x = Domain.None := by
  cases x with
  | Included v => exact absurd h (by simp [convert_to_secluded])
  | Secluded v => exact absurd h (by simp [convert_to_secluded])
  | Infinite => rfl

/-- Claim C1: on an interval receiver, for a finite incoming bound whose
normalizations are `s` (lower side) and `t` (upper side), `gt` keeps the
larger of the normalized incoming value and the existing lower boundary
value, preserving the existing boundary's inclusivity category, turns an
`Unbounded` lower bound into `Excluded(s)`, and returns the receiver
unchanged when the incoming value is not strictly tighter; `lt` behaves
symmetrically on the upper boundary with the smaller value winning. -/
theorem gt_lt_narrowing (x : Value) (s t : Int) (u l : Value)
    (hg : convert_to_secluded x true = some s)
    (hl : convert_to_secluded x false = some t) :
    ((∀ i : Int, (Domain.Interval (Value.Included i) u).gt x =
        (if s > i then Domain.Interval (Value.Included s) u
         else Domain.Interval (Value.Included i) u))
      ∧ (∀ i : Int, (Domain.Interval (Value.Secluded i) u).gt x =
        (if s > i then Domain.Interval (Value.Secluded s) u
         else Domain.Interval (Value.Secluded i) u))
      ∧ (Domain.Interval Value.Infinite u).gt x = Domain.Interval (Value.Secluded s) u)
    ∧ ((∀ i : Int, (Domain.Interval l (Value.Included i)).lt x =
        (if t < i then Domain.Interval l (Value.Included t)
         else Domain.Interval l (Value.Included i)))
      ∧ (∀ i : Int, (Domain.Interval l (Value.Secluded i)).lt x =
        (if t < i then Domain.Interval l (Value.Secluded t)
         else Domain.Interval l (Value.Secluded i)))
      ∧ (Domain.Interval l Value.Infinite).lt x = Domain.Interval l (Value.Secluded t)) :=
  ⟨gt_eq_cases u x s hg, lt_eq_cases l x t hl⟩

/-- Concrete instance of the `gt` narrowing case analysis: raising the
lower bound `Included 3` with the strictly tighter `Excluded 7` produces
`Included 7`, the inclusivity category being preserved. -/
theorem gt_lt_narrowing_witness :
    (Domain.Interval (Value.Included 3) Value.Infinite).gt (Value.Secluded 7)
      = Domain.Interval (Value.Included 7) Value.Infinite := by
  have h :=
    (gt_lt_narrowing (Value.Secluded 7) 7 7 Value.Infinite Value.Infinite rfl rfl).1.1 3
  simpa using h

/-- Counterexample for claim C4: a `Union` receiver narrowed by an
`Unbounded` incoming bound returns the empty domain, not a clone of the
receiver. -/
theorem union_gt_infinite_not_clone :
    (Domain.Union [Domain.new]).gt Value.Infinite = Domain.None
    ∧ (Domain.Union [Domain.new]).gt Value.Infinite ≠ Domain.Union [Domain.new] :=
  ⟨rfl, fun h => Domain.noConfusion h⟩

/-- Claim C4 (amended): for every `Union` or `Empty` receiver and every
finite (non-`Unbounded`) incoming bound, `gt` and `lt` are no-ops that
return an equivalent clone of the receiver. -/
theorem union_none_gt_lt_noop (x : Value) (hx : x ≠ Value.Infinite) :
    (∀ ds : List Domain,
        (Domain.Union ds).gt x = Domain.Union ds ∧ (Domain.Union ds).lt x = Domain.Union ds)
    ∧ Domain.None.gt x = Domain.None ∧ Domain.None.lt x = Domain.None := by
  cases x with
  | Included v => exact ⟨fun _ => ⟨rfl, rfl⟩, rfl, rfl⟩
  | Secluded v => exact ⟨fun _ => ⟨rfl, rfl⟩, rfl, rfl⟩
  | Infinite => exact absurd rfl hx

/-- Concrete instance of the no-op behaviour: narrowing a one-member union
with the finite bound `Included 0` returns the union unchanged. -/
theorem union_none_gt_lt_noop_witness :
    (Domain.Union [Domain.new]).gt (Value.Included 0) = Domain.Union [Domain.new] :=
  ((union_none_gt_lt_noop (Value.Included 0) (by decide)).1 [Domain.new]).1

/-- Counterexample for claim C5: the narrowing chain of the claim does not
render as `"(3;4)"` — the side-aware normalizer turns the upper bound
`Included 5` into the exclusive boundary `6`. -/
theorem chain_repr_ne_claim :
    (((Domain.new.lt (Value.Included 5)).gt (Value.Secluded 3)).gt (Value.Secluded 1)).repr
      ≠ "(3;4)" := by
  intro h
  rw [show (((Domain.new.lt (Value.Included 5)).gt (Value.Secluded 3)).gt
      (Value.Secluded 1)).repr = "(3;6)" from rfl] at h
  exact absurd h (by decide)

/-- Claim C5 (amended): the chain renders as `"(3;6)"`; the tightest of
the two `gt` calls wins and swapping their order yields the same result. -/
theorem chain_repr_eq :
    (((Domain.new.lt (Value.Included 5)).gt (Value.Secluded 3)).gt (Value.Secluded 1)).repr
      = "(3;6)"
    ∧ (((Domain.new.lt (Value.Included 5)).gt (Value.Secluded 1)).gt (Value.Secluded 3)).repr
      = "(3;6)" :=
  ⟨rfl, rfl⟩

/-- `ascRange` at a single point. -/
theorem ascRange_self (a : Int) : ascRange a a = [a] := by
  unfold ascRange
  have h : (a + 1 - a).toNat = 1 := by omega
  rw [h]
  simp [List.range_succ]

/-- `ascRange` peels off its first element when nonempty. -/
theorem ascRange_cons (a b : Int) (h : a ≤ b) : ascRange a b = a :: ascRange (a + 1) b := by
  unfold ascRange
  have h1 : (b + 1 - a).toNat = (b + 1 - (a + 1)).toNat + 1 := by omega
  rw [h1, List.range_succ_eq_map, List.map_cons, List.map_map]
  refine congrArg₂ List.cons (by simp) ?_
  refine List.map_congr_left ?_
  intro k _
  simp only [Function.comp_apply]
  push_cast
  ring

/-- With enough fuel, the ascending emission loop bounded above by `b`
emits exactly the integers from its start to `b`. -/
theorem genLoopList_asc (fuel : Nat) :
    ∀ a b : Int, a ≤ b → (b - a).toNat < fuel →
      genLoopList fuel a (some b) true = some (ascRange a b) := by
  induction fuel with
  | zero => intro a b _ hf; omega
  | succ n ih =>
      intro a b hab hf
      by_cases hba : b = a
      · subst hba
        simp [genLoopList, ascRange_self]
      · simp only [genLoopList]
        rw [if_neg (by simp only [Option.some.injEq]; omega)]
        simp only [if_true]
        rw [ih (a + 1) b (by omega) (by omega)]
        rw [ascRange_cons a b hab]

/-- On an interval with two finite borders, `generate`'s set-up produces
the ascending walk from the integer inside the lower boundary, stopping at
the integer inside the upper boundary. -/
theorem genParams_finite (l u : Value) (a b : Int)
    (hl : startInside l = some a) (hu : stopInside u = some b) :
    genParams l u = some (a, some b, true) := by
  cases l <;> cases u <;> simp_all [genParams, startInside, stopInside]

/-- Claim C6: `generate` on `new().gt(Excluded 5).lt(Excluded 10)` passes
exactly `6, 7, 8, 9` to the receiver, in ascending order; in general, on
an interval with two finite borders whose inside start `a` is at most its
inside stop `b`, the enumeration is the ascending range from `a` to `b`
inclusive. -/
theorem generate_bounded_range :
    genList 4 ((Domain.new.gt (Value.Secluded 5)).lt (Value.Secluded 10)) = some [6, 7, 8, 9]
    ∧ ∀ (l u : Value) (a b : Int), startInside l = some a → stopInside u = some b →
        a ≤ b → ∀ fuel : Nat, (b - a).toNat < fuel →
          genList fuel (Domain.Interval l u) = some (ascRange a b) := by
  refine ⟨rfl, ?_⟩
  intro l u a b hl hu hab fuel hf
  rw [genList, genParams_finite l u a b hl hu]
  exact genLoopList_asc fuel a b hab hf

/-- Concrete instance of the bounded enumeration: the interval `(5;10)`
enumerates the ascending range from `6` to `9`. -/
theorem generate_bounded_range_witness :
    genList 4 (Domain.Interval (Value.Secluded 5) (Value.Secluded 10)) = some (ascRange 6 9) :=
  generate_bounded_range.2 (Value.Secluded 5) (Value.Secluded 10) 6 9 rfl rfl
    (by decide) 4 (by decide)

/-- Counterexample for claim C7: on the interval with both borders
infinite, `generate` takes the early return (`from_l` and `from_r` both
false) and terminates at once with no receiver call, instead of walking
the whole integer line. -/
theorem generate_full_line_cex :
    genParams Value.Infinite Value.Infinite = none
    ∧ genList 1 (Domain.Interval Value.Infinite Value.Infinite) = some [] :=
  ⟨rfl, rfl⟩

/-- Claim C7 (amended): `generate` on an interval whose two borders are
both `Unbounded` returns immediately and never invokes the callback. -/
theorem generate_full_line_no_emission :
    ∀ fuel : Nat, genList fuel (Domain.Interval Value.Infinite Value.Infinite) = some [] :=
  fun _ => rfl

/-- Claim C9: narrowing an interval is monotonic — every integer contained
in `d.gt(x)` is contained in `d`, and likewise for `d.lt(x)`. -/
theorem gt_lt_monotonic (l u x : Value) (y : Int) :
    (Domain.memb y ((Domain.Interval l u).gt x) = true →
      Domain.memb y (Domain.Interval l u) = true)
    ∧ (Domain.memb y ((Domain.Interval l u).lt x) = true →
      Domain.memb y (Domain.Interval l u) = true) := by
  constructor
  · intro h
    cases hx : convert_to_secluded x true with
    | none =>
        rw [gt_none_of_convert _ _ hx] at h
        exact absurd h (by simp [Domain.memb])
    | some s =>
        obtain ⟨hI, hS, hInf⟩ := gt_eq_cases u x s hx
        cases l with
        | Included i =>
            rw [hI i] at h
            by_cases hsi : s > i
            · rw [if_pos hsi] at h
              simp only [Domain.memb, Bool.and_eq_true, decide_eq_true_eq] at h ⊢
              exact ⟨by omega, h.2⟩
            · rwa [if_neg hsi] at h
        | Secluded i =>
            rw [hS i] at h
            by_cases hsi : s > i
            · rw [if_pos hsi] at h
              simp only [Domain.memb, Bool.and_eq_true, decide_eq_true_eq] at h ⊢
              exact ⟨by omega, h.2⟩
            · rwa [if_neg hsi] at h
        | Infinite =>
            rw [hInf] at h
            simp only [Domain.memb, Bool.and_eq_true] at h ⊢
            exact ⟨trivial, h.2⟩
  · intro h
    cases hx : convert_to_secluded x false with
    | none =>
        rw [lt_none_of_convert _ _ hx] at h
        exact absurd h (by simp [Domain.memb])
    | some t =>
        obtain ⟨hI, hS, hInf⟩ := lt_eq_cases l x t hx
        cases u with
        | Included i =>
            rw [hI i] at h
            by_cases hti : t < i
            · rw [if_pos hti] at h
              simp only [Domain.memb, Bool.and_eq_true, decide_eq_true_eq] at h ⊢
              exact ⟨h.1, by omega⟩
            · rwa [if_neg hti] at h
        | Secluded i =>
            rw [hS i] at h
            by_cases hti : t < i
            · rw [if_pos hti] at h
              simp only [Domain.memb, Bool.and_eq_true, decide_eq_true_eq] at h ⊢
              exact ⟨h.1, by omega⟩
            · rwa [if_neg hti] at h
        | Infinite =>
            rw [hInf] at h
            simp only [Domain.memb, Bool.and_eq_true] at h ⊢
            exact ⟨h.1, trivial⟩

/-- Concrete instance of monotonicity: `10` lies in `(0;∞)` narrowed by
`gt (Excluded 5)`, hence lies in `(0;∞)` itself. -/
theorem gt_lt_monotonic_witness :
    Domain.memb 10 (Domain.Interval (Value.Secluded 0) Value.Infinite) = true :=
  (gt_lt_monotonic (Value.Secluded 0) Value.Infinite (Value.Secluded 5) 10).1 (by decide)

/-- A value inside the `i32` range is unchanged by the wrap-around. -/
theorem wrap32_of_in32 (x : Int) (h : in32 x) : wrap32 x = x := by
  unfold wrap32
  unfold in32 at h
  omega

/-- The wrap-around always lands inside the `i32` range. -/
theorem wrap32_in32 (x : Int) : in32 (wrap32 x) := by
  unfold wrap32 in32
  omega

/-- Incrementing after a wrap-around agrees with wrapping the incremented
value. -/
theorem wrap32_step (x : Int) : wrap32 (wrap32 x + 1) = wrap32 (x + 1) := by
  unfold wrap32
  omega

/-- One wrapped increment lowers the walk's remaining distance to the
stopping bound by one. -/
theorem wrap32_dist_drop (v b : Int) (hv : in32 v) (hb : in32 b) (hbv : b ≠ v) :
    ((b - wrap32 (v + 1)) % 4294967296).toNat = ((b - v) % 4294967296).toNat - 1
    ∧ 1 ≤ ((b - v) % 4294967296).toNat := by
  unfold wrap32
  unfold in32 at hv hb
  omega

/-- Before the remaining distance is exhausted, the wrapped walk from `a`
has not yet reached the stopping bound `b`. -/
theorem wrap32_no_hit (a b : Int) (n : Nat) (ha : in32 a) (hb : in32 b)
    (hk : (n : Int) + 1 ≤ (b - a) % 4294967296)
    (hEq : b = wrap32 (a + n)) : False := by
  unfold wrap32 at hEq
  unfold in32 at ha hb
  omega

/-- Under wrapping `i32` arithmetic the ascending emission loop always
stops once the fuel exceeds the wrapped distance to the bound, emitting
exactly distance-plus-one values. -/
theorem genLoopList32_stops (fuel : Nat) :
    ∀ v b : Int, in32 v → in32 b → ((b - v) % 4294967296).toNat < fuel →
      ∃ out, genLoopList32 fuel v (some b) true = some out
        ∧ out.length = ((b - v) % 4294967296).toNat + 1 := by
  induction fuel with
  | zero => intro v b _ _ hf; omega
  | succ n ih =>
      intro v b hv hb hf
      by_cases hbv : b = v
      · subst hbv
        refine ⟨[b], by simp [genLoopList32], ?_⟩
        have h0 : (b - b) % 4294967296 = 0 := by omega
        simp [h0]
      · have hd := wrap32_dist_drop v b hv hb hbv
        obtain ⟨out, hout, hlen⟩ := ih (wrap32 (v + 1)) b (wrap32_in32 (v + 1)) hb (by omega)
        refine ⟨v :: out, ?_, ?_⟩
        · simp only [genLoopList32]
          rw [if_neg (by simp only [Option.some.injEq]; exact hbv)]
          simp only [if_true]
          rw [hout]
        · simp only [List.length_cons, hlen]
          omega

/-- Until its wrapped distance to the bound is exhausted, the ascending
wrapping loop's iteration `k` emits `wrap32 (a + k)`. -/
theorem genIter32_walk (a b : Int) (ha : in32 a) (hb : in32 b) :
    ∀ k : Nat, k ≤ ((b - a) % 4294967296).toNat →
      genIter32 a (some b) true k = some (wrap32 (a + k)) := by
  intro k
  induction k with
  | zero =>
      intro _
      simp [genIter32, wrap32_of_in32 a ha]
  | succ n ih =>
      intro hk
      have hn : n ≤ ((b - a) % 4294967296).toNat := by omega
      simp only [genIter32, ih hn]
      rw [if_neg ?_]
      · simp only [if_true, Option.some.injEq]
        rw [wrap32_step]
        congr 1
        push_cast
        ring
      · simp only [Option.some.injEq]
        intro hEq
        exact wrap32_no_hit a b n ha hb (by omega) hEq

/-- Counterexample for claim C10: on `(3;4)` — ascending start `4`,
stop `3` — `generate` under the source's `i32` arithmetic (release-mode
wrapping) terminates: it stops after wrapping around the whole 32-bit
range, having invoked the callback exactly `2^32` times, rather than
running forever. -/
theorem generate_start_gt_stop_cex :
    ∃ out, genList32 4294967296 (Domain.Interval (Value.Secluded 3) (Value.Secluded 4)) = some out
      ∧ out.length = 4294967296 := by
  obtain ⟨out, hout, hlen⟩ := genLoopList32_stops 4294967296 4 3
    (by unfold in32; omega) (by unfold in32; omega) (by norm_num)
  refine ⟨out, ?_, ?_⟩
  · rw [genList32, show genParams (Value.Secluded 3) (Value.Secluded 4) = some (4, some 3, true)
      from rfl]
    exact hout
  · rw [hlen]
    decide

/-- Claim C10 (amended): on an interval with two finite `i32` borders
whose inside start `a` is strictly greater than its inside stop `b`, the
break test fails until the value wraps: iteration `k` of the loop emits
`wrap32 (a + k)` — the start value first, then increments past the stop —
every integer of the domain's (empty) member set is missed, and under
release-mode wrapping `i32` arithmetic `generate` terminates after exactly
`(b − a) mod 2^32 + 1` callback invocations (a debug build panics at the
`i32::MAX` increment instead of completing the wrap). -/
theorem generate_start_gt_stop_wraps (l u : Value) (a b : Int)
    (hl : startInside l = some a) (hu : stopInside u = some b)
    (ha : in32 a) (hb : in32 b) (hab : b < a) :
    (∀ k : Nat, k ≤ ((b - a) % 4294967296).toNat →
        genIter32 a (some b) true k = some (wrap32 (a + k)))
    ∧ (∃ out, genList32 (((b - a) % 4294967296).toNat + 1) (Domain.Interval l u) = some out
        ∧ out.length = ((b - a) % 4294967296).toNat + 1)
    ∧ (∀ x : Int, Domain.memb x (Domain.Interval l u) = false) := by
  refine ⟨genIter32_walk a b ha hb, ?_, ?_⟩
  · obtain ⟨out, hout, hlen⟩ := genLoopList32_stops (((b - a) % 4294967296).toNat + 1) a b
      ha hb (by omega)
    refine ⟨out, ?_, hlen⟩
    rw [genList32, genParams_finite l u a b hl hu]
    exact hout
  · intro x
    cases l with
    | Infinite => exact absurd hl (by simp [startInside])
    | Included i =>
        simp only [startInside, Option.some.injEq] at hl
        cases u with
        | Infinite => exact absurd hu (by simp [stopInside])
        | Included j =>
            simp only [stopInside, Option.some.injEq] at hu
            simp only [Domain.memb]
            rw [← Bool.decide_and]
            exact decide_eq_false (by omega)
        | Secluded j =>
            simp only [stopInside, Option.some.injEq] at hu
            simp only [Domain.memb]
            rw [← Bool.decide_and]
            exact decide_eq_false (by omega)
    | Secluded i =>
        simp only [startInside, Option.some.injEq] at hl
        cases u with
        | Infinite => exact absurd hu (by simp [stopInside])
        | Included j =>
            simp only [stopInside, Option.some.injEq] at hu
            simp only [Domain.memb]
            rw [← Bool.decide_and]
            exact decide_eq_false (by omega)
        | Secluded j =>
            simp only [stopInside, Option.some.injEq] at hu
            simp only [Domain.memb]
            rw [← Bool.decide_and]
            exact decide_eq_false (by omega)

/-- Concrete instance of the wrap-around behaviour on `(3;4)`: iteration
`2` of the loop emits `6`, the run with fuel `2^32` terminates with a list
of `2^32` emissions, and `6` is not in the domain. -/
theorem generate_start_gt_stop_wraps_witness :
    genIter32 4 (some 3) true 2 = some 6
    ∧ (∃ out, genList32 4294967296
        (Domain.Interval (Value.Secluded 3) (Value.Secluded 4)) = some out
        ∧ out.length = 4294967296)
    ∧ Domain.memb 6 (Domain.Interval (Value.Secluded 3) (Value.Secluded 4)) = false := by
  have h := generate_start_gt_stop_wraps (Value.Secluded 3) (Value.Secluded 4) 4 3
    rfl rfl (by unfold in32; omega) (by unfold in32; omega) (by omega)
  refine ⟨?_, ?_, h.2.2 6⟩
  · have h2 := h.1 2 (by norm_num)
    rw [h2]
    norm_num [wrap32]
  · obtain ⟨out, hout, hlen⟩ := h.2.1
    refine ⟨out, ?_, ?_⟩
    · rw [show ((((3 : Int) - 4) % 4294967296).toNat + 1) = 4294967296 from by decide] at hout
      exact hout
    · rw [hlen]
      decide

end DynamicDomain
